import Mathlib

/-!
Verification of the Hatrac object-store core against its source.

Shallow embedding of the relevant parts of
`hatrac/model/directory/pgsql.py`, `hatrac/core.py`,
`hatrac/model/storage/filesystem.py` and `hatrac/rest/core.py`.
Python exceptions are represented by the explicit error sum
`HatracError`; SQL tables are represented by lists of row structures;
Python lists, sets and dicts by Lean lists and association lists.
-/

/-- Error taxonomy of `hatrac/core.py` (`BadRequest`, `Conflict`,
`Forbidden`, `Unauthenticated`, `NotFound`), plus `ioError` for a raised
Python `IOError` and `pyIndexError` for an uncaught Python `IndexError`. -/
inductive HatracError where
  | badRequest
  | conflict
  | forbidden
  | unauthenticated
  | notFound
  | ioError
  | pyIndexError
deriving DecidableEq, Repr

/-- Client security context as consumed by `HatracName.enforce_acl` in
`pgsql.py`.  `client` models `client_context.client` in its string-valued
shape (a dict-shaped client is normalized to its id string by the source);
`none` is an anonymous caller.  `attributes` models the attribute id list,
each attribute likewise normalized to its id string. -/
structure ClientContext where
  client : Option String
  attributes : List String
deriving DecidableEq, Repr

/-- Union of the listed access ACL sets, translating the loop
`for access in accesses: acl.update(self.acls.get(access, ACL()))` of
`HatracName.enforce_acl` (`pgsql.py` lines 204-207).  ACL sets are
represented as lists; membership is the set semantics. -/
def aclUnion (acls : List (String × List String)) (accesses : List String) : List String :=
  accesses.foldl (fun acc access => acc ++ ((acls.lookup access).getD [])) []

/-- Translation of `HatracName.enforce_acl` (`pgsql.py` lines 204-221).
The line `client = client_context.client or None` maps a falsy (empty)
client string to `None` before ACL matching, while the final
`elif client_context.client is not None` branch tests the original value;
both are modelled exactly.  Returns `.ok true` on acceptance. -/
def enforce_acl (acls : List (String × List String)) (accesses : List String)
    (ctx : ClientContext) : Except HatracError Bool :=
  let acl := aclUnion acls accesses
  let client : Option String :=
    match ctx.client with
    | some s => if s = "" then none else some s
    | none => none
  if acl.contains "*"
      || (match client with | some c => acl.contains c | none => false)
      || ctx.attributes.any (fun a => acl.contains a) then
    .ok true
  else if ctx.client.isSome then
    .error .forbidden
  else
    .error .unauthenticated

/-- Translation of the chunk-shape validation in
`HatracDirectory.upload_chunk_from_file` (`pgsql.py` lines 1027-1046).
In the Python 3 source `nchunks = upload.nbytes / upload.chunksize` is
true division, so `nchunks` is a fraction, not an integer; it is modelled
by exact rational division (CPython computes a binary float, which agrees
with the rational value at every input used in the theorems below,
e.g. 45 / 10 = 4.5 exactly).  `remainder` uses the integer `%`.  The three
sequential `if ... raise Conflict` tests are modelled in source order. -/
def upload_chunk_check (jobNbytes chunksize : ℕ) (position : ℕ) (nbytes : ℕ) :
    Except HatracError Unit :=
  let nchunks : ℚ := (jobNbytes : ℚ) / (chunksize : ℚ)
  let remainder : ℕ := jobNbytes % chunksize
  if (position : ℚ) < nchunks - 1 ∧ nbytes ≠ chunksize then .error .conflict
  else if remainder ≠ 0 ∧ (position : ℚ) = nchunks ∧ nbytes ≠ remainder then .error .conflict
  else if nchunks < (position : ℚ) ∨ ((position : ℚ) = nchunks ∧ remainder = 0) then
    .error .conflict
  else .ok ()

/-- Acceptance condition of claim C5, restricted per the counterexample
below: the union of the listed access sets contains the literal star
role, the client id (which must be non-empty to match, because the source
normalizes a falsy client to `None` before matching), or at least one
attribute id. -/
def aclMatchCondition (acls : List (String × List String)) (accesses : List String)
    (ctx : ClientContext) : Prop :=
  "*" ∈ aclUnion acls accesses
    ∨ (∃ c, ctx.client = some c ∧ c ≠ "" ∧ c ∈ aclUnion acls accesses)
    ∨ (∃ a ∈ ctx.attributes, a ∈ aclUnion acls accesses)

/-- C5 counterexample: a context whose client id is the empty string, with
an ACL whose `read` set contains that empty string.  The union of the
listed access sets contains the client id, so the claim says the check
accepts; the code raises Forbidden, because
`client = client_context.client or None` discards the falsy client before
matching while the final branch still sees an authenticated client. -/
theorem hatrac_enforce_acl_empty_client_cex :
    "" ∈ aclUnion [("read", [""])] ["read"]
    ∧ (ClientContext.mk (some "") []).client = some ""
    ∧ enforce_acl [("read", [""])] ["read"] ⟨some "", []⟩ = .error .forbidden := by
  refine ⟨by decide, rfl, rfl⟩

/-- C5 (amended): `enforce_acl` accepts iff the union of the listed access
sets contains the literal star role, the non-empty client id, or one of
the attribute ids; otherwise it raises Forbidden when the context carries
a client id (even an empty one) and Unauthenticated when it carries
none. -/
theorem hatrac_enforce_acl_characterization (acls : List (String × List String))
    (accesses : List String) (ctx : ClientContext) :
    (enforce_acl acls accesses ctx = .ok true ↔ aclMatchCondition acls accesses ctx)
    ∧ (enforce_acl acls accesses ctx = .error .forbidden ↔
        (¬ aclMatchCondition acls accesses ctx ∧ ctx.client.isSome = true))
    ∧ (enforce_acl acls accesses ctx = .error .unauthenticated ↔
        (¬ aclMatchCondition acls accesses ctx ∧ ctx.client = none)) := by
  obtain ⟨cl, attrs⟩ := ctx
  have hcond :
      ((aclUnion acls accesses).contains "*"
        || (match (match cl with
              | some s => if s = "" then none else some s
              | none => none) with
            | some c => (aclUnion acls accesses).contains c
            | none => false)
        || attrs.any (fun a => (aclUnion acls accesses).contains a)) = true
       ↔ aclMatchCondition acls accesses ⟨cl, attrs⟩ := by
    unfold aclMatchCondition
    cases cl with
    | none =>
      simp [List.elem_iff, List.any_eq_true, or_assoc]
    | some s =>
      by_cases hs : s = "" <;>
        simp [hs, List.elem_iff, List.any_eq_true, or_assoc]
  unfold enforce_acl
  simp only []
  split_ifs with h1 h2
  · rw [hcond] at h1
    exact ⟨by simp [h1], by simp [h1], by simp [h1]⟩
  · rw [hcond] at h1
    obtain ⟨c, rfl⟩ := Option.isSome_iff_exists.mp h2
    exact ⟨by simp [h1], by simp [h1], by simp [h1]⟩
  · rw [hcond] at h1
    have hnone : cl = none := Option.not_isSome_iff_eq_none.mp (by simpa using h2)
    subst hnone
    exact ⟨by simp [h1], by simp [h1], by simp [h1]⟩

/-- C3: for the upload job declared with 45 total bytes and
chunk size 10, the expected chunk shape is nchunks = 45 / 10 = 4 with
remainder 5 > 0, so per the claim the final position 4 must supply exactly
5 bytes and a 7-byte chunk must raise Conflict; the code accepts it,
because `position == nchunks` compares the integer 4 with the
true-division value 4.5 and the final-chunk test never fires. -/
theorem hatrac_final_chunk_check_unreachable :
    upload_chunk_check 45 10 4 7 = .ok ()
    ∧ 45 % 10 ≠ 0 ∧ 4 = 45 / 10 ∧ 7 ≠ 45 % 10 := by
  refine ⟨?_, by decide, by decide, by decide⟩
  unfold upload_chunk_check
  norm_num

/-- The fixed read buffer size `_bufsize = 1024**2` of
`HatracStorage` in `filesystem.py`. -/
def fsBufsize : ℕ := 1024 ^ 2

/-- Translation of the `helper` generator loop of
`HatracStorage.get_content_range` (`filesystem.py` lines 216-247) for an
object version whose metadata carries no `content-md5` key, so the
optional hasher branch is `None` and only byte movement remains.  Each
pass reads `buf = f.read(min(limit - rpos, bufsize))` from the complete
on-disk content (modelled as a byte list), advances `rpos`, stops after
yielding the buffer once `rpos >= limit - 1`, and raises `IOError` on a
truncated read.  The yielded buffers are collected in order. -/
def readLoop (content : List ℕ) (limit : ℕ) (rpos : ℕ) :
    Except HatracError (List (List ℕ)) :=
  let buf := (content.drop rpos).take (min (limit - rpos) fsBufsize)
  let rpos2 := rpos + buf.length
  if _h1 : (limit : ℤ) - 1 ≤ (rpos2 : ℤ) then .ok [buf]
  else if _h2 : buf.length = 0 then .error .ioError
  else
    match readLoop content limit rpos2 with
    | .ok rest => .ok (buf :: rest)
    | .error e => .error e
termination_by limit - rpos
decreasing_by
  have hb : (List.take (min (limit - rpos) fsBufsize) (List.drop rpos content)).length
      ≤ limit - rpos := le_trans (List.length_take_le _ _) (min_le_left _ _)
  have h1x : ¬ ((limit : ℤ) - 1
      ≤ ((rpos + (List.take (min (limit - rpos) fsBufsize) (List.drop rpos content)).length : ℕ) : ℤ)) := _h1
  have h2x : ¬ (List.take (min (limit - rpos) fsBufsize) (List.drop rpos content)).length = 0 := _h2
  omega

/-- A Python `slice(start, stop)` argument with optional endpoints, as
passed for `get_slice`. -/
structure PySlice where
  start : Option ℕ
  stop : Option ℕ
deriving DecidableEq, Repr

/-- Translation of `HatracStorage.get_content_range`
(`filesystem.py` lines 193-249), byte path only: `pos` and `limit`
coalesce the slice endpoints against the stored size, the returned count
is `length = limit - pos`, and the body is the `helper` generator loop. -/
def get_content_range (content : List ℕ) (get_slice : Option PySlice) :
    ℤ × Except HatracError (List (List ℕ)) :=
  let nbytes := content.length
  let pos : ℕ := match get_slice with | some s => s.start.getD 0 | none => 0
  let limit : ℕ := match get_slice with | some s => s.stop.getD nbytes | none => nbytes
  ((limit : ℤ) - (pos : ℤ), readLoop content limit pos)

/-- C4: on a stored version of 1024*1024 + 1 bytes read in whole (the
slice `[0, n)` with `n = nbytes`), `get_content_range` reports the byte
count `n` but its generator yields a single buffer of only 1024*1024
bytes: the loop sets `eof` once `rpos >= limit - 1`, so the final byte is
never read and the concatenation of the yielded chunks is shorter than
the reported count, contradicting the claim. -/
theorem hatrac_range_read_truncation :
    (get_content_range (List.replicate (fsBufsize + 1) 0) none).1 = (fsBufsize : ℤ) + 1
    ∧ (get_content_range (List.replicate (fsBufsize + 1) 0) none).2
        = .ok [List.replicate fsBufsize 0]
    ∧ ([List.replicate fsBufsize 0] : List (List ℕ)).flatten.length ≠ fsBufsize + 1 := by
  have hmin1 : (fsBufsize + 1 - 0) ⊓ fsBufsize = fsBufsize := by omega
  have htake : (List.replicate (fsBufsize + 1) (0 : ℕ)).take fsBufsize
      = List.replicate fsBufsize 0 := by
    rw [List.take_replicate]
    congr 1
  refine ⟨?_, ?_, ?_⟩
  · simp [get_content_range]
  · show readLoop (List.replicate (fsBufsize + 1) 0) (List.replicate (fsBufsize + 1) 0).length 0
        = .ok [List.replicate fsBufsize 0]
    rw [List.length_replicate, readLoop.eq_1]
    rw [List.drop_zero, hmin1, htake]
    rw [dif_pos (by push_cast; simp)]
  · simp

/-- A row of the `hatrac.version` table (`pgsql.py` `_version_table_sql`):
serial `id` (bigserial), owning `nameid`, nullable client-visible
`version` tag, and the `is_deleted` soft-delete flag.  The `nbytes` and
metadata columns play no role in the claims about version visibility and
are omitted. -/
structure VersionRow where
  id : ℕ
  nameid : ℕ
  version : Option String
  is_deleted : Bool
deriving DecidableEq, Repr

/-- The three SQL mutations of `hatrac.version` rows in `pgsql.py`:
`_create_version` (INSERT with `is_deleted = True` and no `version`
column, hence NULL), `_complete_version` (prepared
`hatrac_complete_version`, executed with `is_deleted = False` and a
storage-issued tag at both call sites), and `_delete_version` (prepared
`hatrac_delete_version`). -/
inductive DirOp where
  | create (nameid : ℕ)
  | complete (id : ℕ) (tag : String)
  | softDelete (id : ℕ)
deriving DecidableEq, Repr

/-- The `hatrac.version` table contents plus the bigserial sequence
counter that issues the next internal serial id. -/
structure VersionState where
  rows : List VersionRow
  nextId : ℕ
deriving DecidableEq, Repr

/-- The row inserted by `_create_version`: fresh serial id,
`version = NULL`, `is_deleted = True`. -/
def createVersionRow (s : VersionState) (nameid : ℕ) : VersionRow :=
  ⟨s.nextId, nameid, none, true⟩

/-- One committed mutation of the version table.
`create`: `INSERT INTO hatrac.version (nameid, nbytes, metadata,
is_deleted) VALUES (..., True) RETURNING *` with a fresh bigserial id;
`complete`: `UPDATE hatrac.version SET is_deleted = $3, version = $2
WHERE id = $1` with `$3 = False`;
`softDelete`: `UPDATE hatrac.version SET is_deleted = True
WHERE id = $1`. -/
def applyOp (s : VersionState) : DirOp → VersionState
  | .create nameid => ⟨s.rows ++ [createVersionRow s nameid], s.nextId + 1⟩
  | .complete id tag =>
      ⟨s.rows.map (fun r =>
        if r.id = id then { r with version := some tag, is_deleted := false } else r),
       s.nextId⟩
  | .softDelete id =>
      ⟨s.rows.map (fun r => if r.id = id then { r with is_deleted := true } else r),
       s.nextId⟩

/-- The empty version table with the serial sequence at 1. -/
def initState : VersionState := ⟨[], 1⟩

/-- The state after a committed sequence of version-table mutations. -/
def runOps (ops : List DirOp) : VersionState := ops.foldl applyOp initState

/-- A NULL version tag implies the row is soft-deleted; this is the table
CHECK constraint `version IS NOT NULL OR is_deleted`. -/
def nullImpliesDeleted (s : VersionState) : Prop :=
  ∀ r ∈ s.rows, r.version = none → r.is_deleted = true

lemma nullImpliesDeleted_applyOp (s : VersionState) (op : DirOp)
    (h : nullImpliesDeleted s) : nullImpliesDeleted (applyOp s op) := by
  cases op with
  | create nameid =>
    intro r hr hv
    rcases List.mem_append.mp hr with hr | hr
    · exact h r hr hv
    · rcases List.mem_singleton.mp hr with rfl
      rfl
  | complete id tag =>
    intro r hr hv
    obtain ⟨r0, hr0, rfl⟩ := List.mem_map.mp hr
    by_cases hid : r0.id = id
    · simp [hid] at hv
    · simp only [hid, if_neg, ite_false] at hv ⊢
      exact h r0 hr0 hv
  | softDelete id =>
    intro r hr hv
    obtain ⟨r0, hr0, rfl⟩ := List.mem_map.mp hr
    by_cases hid : r0.id = id
    · simp [hid]
    · simp only [hid, ite_false] at hv ⊢
      exact h r0 hr0 hv

lemma nullImpliesDeleted_foldl (ops : List DirOp) :
    ∀ s : VersionState, nullImpliesDeleted s →
      nullImpliesDeleted (ops.foldl applyOp s) := by
  induction ops with
  | nil => intro s h; exact h
  | cons op rest ih =>
    intro s h
    exact ih (applyOp s op) (nullImpliesDeleted_applyOp s op h)

lemma nullImpliesDeleted_runOps (ops : List DirOp) :
    nullImpliesDeleted (runOps ops) :=
  nullImpliesDeleted_foldl ops initState (by intro r hr; simp [initState] at hr)

/-- Denotation of `ORDER BY v.id DESC LIMIT 1` over a result set: the row
carrying the maximal serial id, `none` on an empty set. -/
def maxIdRow : List VersionRow → Option VersionRow
  | [] => none
  | r :: rest =>
    match maxIdRow rest with
    | none => some r
    | some m => if r.id < m.id then some m else some r

lemma maxIdRow_mem {l : List VersionRow} {r : VersionRow}
    (h : maxIdRow l = some r) : r ∈ l := by
  induction l with
  | nil => simp [maxIdRow] at h
  | cons a rest ih =>
    rw [maxIdRow] at h
    cases hm : maxIdRow rest with
    | none =>
      rw [hm] at h
      simp at h
      simp [h]
    | some m =>
      rw [hm] at h
      dsimp only at h
      by_cases hlt : a.id < m.id
      · rw [if_pos hlt] at h
        simp at h
        subst h
        exact List.mem_cons_of_mem a (ih hm)
      · rw [if_neg hlt] at h
        simp at h
        simp [h]

lemma maxIdRow_eq_none {l : List VersionRow} :
    maxIdRow l = none ↔ l = [] := by
  cases l with
  | nil => simp [maxIdRow]
  | cons a rest =>
    rw [maxIdRow]
    cases hm : maxIdRow rest with
    | none => simp
    | some m =>
      by_cases hlt : a.id < m.id <;> simp [hlt]

lemma maxIdRow_ge {l : List VersionRow} {r : VersionRow}
    (h : maxIdRow l = some r) : ∀ x ∈ l, x.id ≤ r.id := by
  induction l generalizing r with
  | nil => simp [maxIdRow] at h
  | cons a rest ih =>
    rw [maxIdRow] at h
    cases hm : maxIdRow rest with
    | none =>
      rw [hm] at h
      simp at h
      subst h
      have hrest : rest = [] := maxIdRow_eq_none.mp hm
      subst hrest
      intro x hx
      rcases List.mem_cons.mp hx with rfl | hx
      · exact le_refl _
      · simp at hx
    | some m =>
      rw [hm] at h
      dsimp only at h
      by_cases hlt : a.id < m.id
      · rw [if_pos hlt] at h
        simp at h
        subst h
        intro x hx
        rcases List.mem_cons.mp hx with rfl | hx
        · exact le_of_lt hlt
        · exact ih hm x hx
      · rw [if_neg hlt] at h
        simp at h
        subst h
        intro x hx
        rcases List.mem_cons.mp hx with rfl | hx
        · exact le_refl _
        · exact le_trans (ih hm x hx) (not_lt.mp hlt)

/-- Result set of the prepared statement `hatrac_version_list`:
`WHERE v.nameid = $1 AND NOT v.is_deleted`. -/
def visibleRows (s : VersionState) (nameid : ℕ) : List VersionRow :=
  s.rows.filter (fun r => r.nameid = nameid && !r.is_deleted)

/-- Translation of `HatracDirectory.get_current_version`
(`pgsql.py` lines 1116-1125): `_version_list(conn, cur, object.id,
limit=1)` evaluates `hatrac_version_list` with `ORDER BY v.id DESC
LIMIT 1`; an empty result raises
`Conflict, object currently has no content`. -/
def get_current_version (s : VersionState) (nameid : ℕ) :
    Except HatracError VersionRow :=
  match maxIdRow (visibleRows s nameid) with
  | some r => .ok r
  | none => .error .conflict

/-- C1: the two-phase visibility invariant.  A row inserted by
`create_version` has a NULL tag and `is_deleted = TRUE`;
`complete_version` sets the targeted row to a non-null tag and
`is_deleted = FALSE` in one update; and over every committed sequence of
version-table mutations, no reachable state holds a row with a NULL
version tag that is not soft-deleted (the CHECK constraint
`version IS NOT NULL OR is_deleted`), so a NULL tag marks exactly the
invisible rows. -/
theorem hatrac_two_phase_visibility (ops : List DirOp) (s : VersionState)
    (nameid id : ℕ) (tag : String) :
    (createVersionRow s nameid).version = none
    ∧ (createVersionRow s nameid).is_deleted = true
    ∧ (applyOp s (.create nameid)).rows = s.rows ++ [createVersionRow s nameid]
    ∧ (∀ r ∈ (applyOp s (.complete id tag)).rows, r.id = id →
        r.version = some tag ∧ r.is_deleted = false)
    ∧ (∀ r ∈ (runOps ops).rows, r.version = none → r.is_deleted = true) := by
  refine ⟨rfl, rfl, rfl, ?_, nullImpliesDeleted_runOps ops⟩
  intro r hr hid
  obtain ⟨r0, hr0, rfl⟩ := List.mem_map.mp hr
  by_cases h0 : r0.id = id
  · simp [h0]
  · simp only [h0, ite_false] at hid ⊢

/-- Witness for C1 at the sequence `[create 7]`: the inserted row is
present, its tag is NULL, and the theorem yields its tombstone flag. -/
theorem hatrac_two_phase_visibility_witness :
    ((⟨1, 7, none, true⟩ : VersionRow) ∈ (runOps [DirOp.create 7]).rows
      ∧ (⟨1, 7, none, true⟩ : VersionRow).version = none)
    ∧ (⟨1, 7, none, true⟩ : VersionRow).is_deleted = true :=
  ⟨⟨by decide, rfl⟩,
    ((hatrac_two_phase_visibility [DirOp.create 7] initState 7 1 "t").2.2.2.2
      ⟨1, 7, none, true⟩ (by decide) rfl)⟩

/-- C2: whenever `get_current_version` returns a version row, that row
belongs to the object, is not soft-deleted, carries a non-null tag, and
its internal serial id is maximal among the object's rows that are not
soft-deleted and carry a non-null tag. -/
theorem hatrac_current_version_highest (ops : List DirOp) (nameid : ℕ) (r : VersionRow)
    (h : get_current_version (runOps ops) nameid = .ok r) :
    r ∈ (runOps ops).rows ∧ r.nameid = nameid ∧ r.is_deleted = false
    ∧ r.version ≠ none
    ∧ ∀ r2 ∈ (runOps ops).rows, r2.nameid = nameid → r2.is_deleted = false →
        r2.version ≠ none → r2.id ≤ r.id := by
  unfold get_current_version at h
  cases hm : maxIdRow (visibleRows (runOps ops) nameid) with
  | none => rw [hm] at h; cases h
  | some m =>
    rw [hm] at h
    cases h
    have hmem := maxIdRow_mem hm
    have hfil := List.mem_filter.mp hmem
    have hpred := hfil.2
    simp only [Bool.and_eq_true, decide_eq_true_eq, Bool.not_eq_true'] at hpred
    refine ⟨hfil.1, hpred.1, hpred.2, ?_, ?_⟩
    · intro hv
      have := nullImpliesDeleted_runOps ops r hfil.1 hv
      rw [hpred.2] at this
      cases this
    · intro r2 hr2 hn hd _hv
      refine maxIdRow_ge hm r2 (List.mem_filter.mpr ⟨hr2, ?_⟩)
      simp [hn, hd]

/-- Witness for C2: two completed versions of object 7; the current
version is the one with the higher serial id. -/
theorem hatrac_current_version_highest_witness :
    get_current_version (runOps [DirOp.create 7, DirOp.complete 1 "a",
        DirOp.create 7, DirOp.complete 2 "b"]) 7
      = .ok ⟨2, 7, some "b", false⟩
    ∧ (⟨2, 7, some "b", false⟩ : VersionRow) ∈ (runOps [DirOp.create 7,
        DirOp.complete 1 "a", DirOp.create 7, DirOp.complete 2 "b"]).rows :=
  ⟨rfl, (hatrac_current_version_highest [DirOp.create 7, DirOp.complete 1 "a",
      DirOp.create 7, DirOp.complete 2 "b"] 7 ⟨2, 7, some "b", false⟩ rfl).1⟩

/-- C10: when an object has no visible version in the committed state
(no row of that object is both live and tagged; covers both versions
never completed and versions soft-deleted), `get_current_version` reports
Conflict, not NotFound. -/
theorem hatrac_no_visible_version_conflict (ops : List DirOp) (nameid : ℕ)
    (h : ¬ ∃ r ∈ (runOps ops).rows,
        r.nameid = nameid ∧ r.is_deleted = false ∧ r.version ≠ none) :
    get_current_version (runOps ops) nameid = .error .conflict := by
  have hvis : visibleRows (runOps ops) nameid = [] := by
    unfold visibleRows
    rw [List.filter_eq_nil_iff]
    intro r hr hpred
    simp only [Bool.and_eq_true, decide_eq_true_eq, Bool.not_eq_true'] at hpred
    refine h ⟨r, hr, hpred.1, hpred.2, ?_⟩
    intro hv
    have := nullImpliesDeleted_runOps ops r hr hv
    rw [hpred.2] at this
    cases this
  unfold get_current_version
  rw [hvis]
  rfl

/-- Witness for C10: object 7 with a single in-progress (never completed)
version has no visible version and reads as Conflict. -/
theorem hatrac_no_visible_version_conflict_witness :
    (¬ ∃ r ∈ (runOps [DirOp.create 7]).rows,
        r.nameid = 7 ∧ r.is_deleted = false ∧ r.version ≠ none)
    ∧ get_current_version (runOps [DirOp.create 7]) 7 = .error .conflict :=
  ⟨by decide, hatrac_no_visible_version_conflict [DirOp.create 7] 7 (by decide)⟩

/-- The closed metadata key set `Metadata._all_keys` of `hatrac/core.py`. -/
def metadataAllKeys : List String :=
  ["content-type", "content-disposition", "content-md5", "content-sha256"]

/-- The write-once key set `Metadata._write_once_keys` of
`hatrac/core.py`. -/
def metadataWriteOnceKeys : List String := ["content-md5", "content-sha256"]

/-- Python `str.lower()` restricted to the ASCII range, which covers every
metadata key in the closed key set. -/
def pyLower (s : String) : String := String.mk (s.data.map Char.toLower)

/-- A metadata map, modelled as an association list of keys to stored
values.  Stored checksum byte strings and text values are both modelled
as strings; the claims depend only on value equality. -/
abbrev Metadata := List (String × String)

/-- Python `dict.__setitem__` on the association list: replace the bound
value in place or append a new binding. -/
def assocSet (m : Metadata) (k v : String) : Metadata :=
  if m.any (fun p => p.1 = k) then m.map (fun p => if p.1 = k then (k, v) else p)
  else m ++ [(k, v)]

/-- Translation of `Metadata.__setitem__` (`core.py` lines 379-395):
lowercase the key, reject keys outside the closed set with BadRequest,
reject a write-once key that is already present with Conflict (the raise
happens before the dict mutation, so the map is unchanged), and otherwise
store the value. -/
def metadataSet (m : Metadata) (k v : String) : Except HatracError Metadata :=
  let k2 := pyLower k
  if k2 ∉ metadataAllKeys then .error .badRequest
  else if k2 ∈ metadataWriteOnceKeys ∧ (m.lookup k2).isSome then .error .conflict
  else .ok (assocSet m k2 v)

/-- Translation of `Metadata.update` (`core.py` lines 397-401): for each
update pair, skip it when the stored value already equals the new value,
otherwise delegate to `__setitem__`; a raised exception stops the loop
and is surfaced together with the map state at that point. -/
def metadataUpdate (m : Metadata) : List (String × String) → Metadata × Option HatracError
  | [] => (m, none)
  | (k, v) :: rest =>
    let k2 := pyLower k
    if m.lookup k2 ≠ some v then
      match metadataSet m k2 v with
      | .error e => (m, some e)
      | .ok m2 => metadataUpdate m2 rest
    else metadataUpdate m rest

/-- C6: on a metadata map that already stores a checksum key
(content-md5 or content-sha256), an update supplying a different value
for that key raises Conflict and leaves the map unchanged, while
re-supplying the stored value is an idempotent no-op. -/
theorem hatrac_write_once_metadata (m : Metadata) (k v v2 : String)
    (hk : k ∈ metadataWriteOnceKeys) (hstored : m.lookup k = some v) :
    (v2 ≠ v → metadataUpdate m [(k, v2)] = (m, some .conflict))
    ∧ metadataUpdate m [(k, v)] = (m, none) := by
  have hlow : pyLower k = k := by
    simp only [metadataWriteOnceKeys, List.mem_cons, List.mem_singleton] at hk
    rcases hk with rfl | hk
    · decide
    · rcases hk with rfl | hk
      · decide
      · simp at hk
  have hall : k ∈ metadataAllKeys := by
    simp only [metadataWriteOnceKeys, List.mem_cons, List.mem_singleton] at hk
    rcases hk with rfl | hk
    · decide
    · rcases hk with rfl | hk
      · decide
      · simp at hk
  have hk2 : k ∈ metadataWriteOnceKeys := by
    simp only [metadataWriteOnceKeys, List.mem_cons, List.mem_singleton] at hk ⊢
    exact hk
  constructor
  · intro hne
    rw [metadataUpdate]
    simp only [hlow, hstored]
    rw [if_pos (by simp; exact fun hh => hne hh.symm)]
    rw [metadataSet]
    simp only [hlow]
    rw [if_neg (by simp [hall]), if_pos ⟨hk2, by rw [hstored]; rfl⟩]
  · rw [metadataUpdate]
    simp only [hlow, hstored]
    rw [if_neg (by simp)]
    rfl

/-- Witness for C6: a map storing content-md5 "abc" rejects the update to
"xyz" with Conflict and accepts the no-op re-set of "abc". -/
theorem hatrac_write_once_metadata_witness :
    (("content-md5" : String) ∈ metadataWriteOnceKeys
      ∧ ([("content-md5", "abc")] : Metadata).lookup "content-md5" = some "abc"
      ∧ ("xyz" : String) ≠ "abc")
    ∧ metadataUpdate [("content-md5", "abc")] [("content-md5", "xyz")]
        = ([("content-md5", "abc")], some .conflict)
    ∧ metadataUpdate [("content-md5", "abc")] [("content-md5", "abc")]
        = ([("content-md5", "abc")], none) :=
  ⟨⟨by decide, by decide, by decide⟩,
    (hatrac_write_once_metadata [("content-md5", "abc")] "content-md5" "abc" "xyz"
      (by decide) (by decide)).1 (by decide),
    (hatrac_write_once_metadata [("content-md5", "abc")] "content-md5" "abc" "xyz"
      (by decide) (by decide)).2⟩

/-- A resource together with its ACL state as seen by the ACL mutation
path: `aclNames` is the class attribute `_acl_names` (the recognized
mutable access names for the resource subtype) and `acls` is the loaded
ACLs dict, keyed by access name (direct and ancestor entries). -/
structure ResourceAcls where
  aclNames : List String
  acls : List (String × List String)
deriving DecidableEq, Repr

/-- Translation of `HatracDirectory.drop_resource_acl_role`
(`pgsql.py` lines 1139-1143) composed with `_drop_resource_acl_role`
(lines 1221-1238): an access name missing from the loaded dict raises
BadRequest (`ACLs.__getitem__`); a role not in the ACL raises NotFound;
an access outside `_acl_names` raises BadRequest; otherwise the SQL
`array_remove(coalesce(acl, ARRAY[]), role)` (guarded by the overlap test
`ARRAY[role] && acl`) stores the ACL with every occurrence of the role
removed. The returned list is the updated ACL column that subsequent
operations reload. -/
def drop_resource_acl_role (res : ResourceAcls) (access role : String) :
    Except HatracError (List String) :=
  match res.acls.lookup access with
  | none => .error .badRequest
  | some acl =>
    if role ∉ acl then .error .notFound
    else if access ∉ res.aclNames then .error .badRequest
    else .ok (acl.filter (fun r => r ≠ role))

/-- C7: for a recognized access name, dropping a role that is not in the
ACL fails with NotFound and changes nothing; dropping a present role
stores the ACL without it, so the ACL observed afterwards no longer
contains the role. -/
theorem hatrac_drop_acl_role (res : ResourceAcls) (access role : String)
    (acl : List String) (hlook : res.acls.lookup access = some acl)
    (hrec : access ∈ res.aclNames) :
    (role ∉ acl → drop_resource_acl_role res access role = .error .notFound)
    ∧ (role ∈ acl →
        drop_resource_acl_role res access role = .ok (acl.filter (fun r => r ≠ role))
        ∧ role ∉ acl.filter (fun r => r ≠ role)) := by
  unfold drop_resource_acl_role
  rw [hlook]
  dsimp only
  constructor
  · intro habs
    rw [if_pos habs]
  · intro hmem
    rw [if_neg (by simp [hmem]), if_neg (by simp [hrec])]
    refine ⟨rfl, ?_⟩
    intro hin
    have := List.mem_filter.mp hin
    simp at this

/-- Witness for C7: on the ACL `read = [foo, bar]`, dropping `bar`
removes it and dropping the absent `baz` reports NotFound. -/
theorem hatrac_drop_acl_role_witness :
    ((([("read", ["foo", "bar"])] : List (String × List String)).lookup "read"
        = some ["foo", "bar"]
      ∧ ("read" : String) ∈ ["owner", "read"]
      ∧ ("bar" : String) ∈ ["foo", "bar"]
      ∧ ("baz" : String) ∉ ["foo", "bar"])
    ∧ drop_resource_acl_role ⟨["owner", "read"], [("read", ["foo", "bar"])]⟩ "read" "bar"
        = .ok (["foo", "bar"].filter (fun r => r ≠ "bar")))
    ∧ drop_resource_acl_role ⟨["owner", "read"], [("read", ["foo", "bar"])]⟩ "read" "baz"
        = .error .notFound :=
  ⟨⟨⟨by decide, by decide, by decide, by decide⟩,
    ((hatrac_drop_acl_role ⟨["owner", "read"], [("read", ["foo", "bar"])]⟩ "read" "bar"
      ["foo", "bar"] (by decide) (by decide)).2 (by decide)).1⟩,
    (hatrac_drop_acl_role ⟨["owner", "read"], [("read", ["foo", "bar"])]⟩ "read" "baz"
      ["foo", "bar"] (by decide) (by decide)).1 (by decide)⟩

/-- A row of the `hatrac.name` table (`pgsql.py` `_name_table_sql`):
serial id, parent id, ancestor id list, unique path string, subtype
(0 namespace, 1 object), soft-delete flag, and the per-row ACL columns
as an association list from access name to role array. -/
structure NameRow where
  id : ℕ
  pid : Option ℕ
  ancestors : List ℕ
  name : String
  subtype : ℕ
  is_deleted : Bool
  acls : List (String × List String)
deriving DecidableEq, Repr

/-- The `hatrac.name` table contents plus its bigserial counter. -/
structure NameState where
  rows : List NameRow
  nextId : ℕ
deriving DecidableEq, Repr

/-- Split a character list at every separator, keeping empty pieces,
matching Python `str.split(sep)` semantics. -/
def splitChars (sep : Char) : List Char → List (List Char)
  | [] => [[]]
  | c :: rest =>
    match splitChars sep rest with
    | [] => [[]]
    | h :: t => if c = sep then [] :: h :: t else (c :: h) :: t

/-- Python `name.split('/')`. -/
def pySplitSlash (s : String) : List String :=
  (splitChars '/' s.data).map (fun l => String.mk l)

/-- Python `"/".join(parts)`. -/
def joinSlash : List String → String
  | [] => ""
  | [p] => p
  | p :: rest => p ++ "/" ++ joinSlash rest

/-- `HatracNamespace._acl_names` from `pgsql.py`. -/
def namespaceAclNames : List String :=
  ["owner", "create", "subtree-owner", "subtree-create", "subtree-read", "subtree-update"]

/-- `HatracObject._acl_names` from `pgsql.py`. -/
def objectAclNames : List String :=
  ["owner", "update", "read", "subtree-owner", "subtree-read"]

/-- The `ancestor_acl_sql` scalar subquery of `pgsql.py`: aggregate the
`subtree-<access>` arrays over the rows whose id is among the resource's
ancestors (list concatenation here; membership matches the SQL
`array_agg DISTINCT` set semantics). -/
def ancestorAcl (s : NameState) (row : NameRow) (access : String) : List String :=
  (s.rows.filter (fun a => row.ancestors.contains a.id)).foldl
    (fun acc a => acc ++ ((a.acls.lookup ("subtree-" ++ access)).getD [])) []

/-- The ACLs dict loaded by `HatracName._acl_load` for a name row: one
entry per `_acl_names` member from the row columns (`coalesce(col, [])`)
plus the `_ancestor_acl_names` entries computed by `ancestor_acl_sql`. -/
def loadedAcls (s : NameState) (row : NameRow) : List (String × List String) :=
  let direct := (if row.subtype = 1 then objectAclNames else namespaceAclNames).map
    (fun an => (an, (row.acls.lookup an).getD []))
  let ancBase := if row.subtype = 1 then ["owner", "update"] else ["owner", "create"]
  direct ++ ancBase.map (fun b => ("ancestor_" ++ b, ancestorAcl s row b))

/-- `hatrac_name_lookup` with `$2 = False`: match the unique name, even if
soft-deleted. -/
def nameLookupAny (s : NameState) (name : String) : Option NameRow :=
  s.rows.find? (fun r => r.name = name)

/-- `hatrac_name_lookup` with `$2 = True` (the default): match the unique
name among live rows only. -/
def nameLookupLive (s : NameState) (name : String) : Option NameRow :=
  s.rows.find? (fun r => r.name = name && !r.is_deleted)

/-- Translation of `HatracDirectory.create_name`
(`pgsql.py` lines 915-948).  `nameparts` filters out the empty components
of `name.split('/')`; an all-empty split would make `nameparts[-1]` raise
an uncaught Python IndexError, modelled as `pyIndexError`.  A `.` or `..`
leaf raises BadRequest; an existing row (live or tombstone) raises
Conflict; an object parent raises Conflict; a missing parent raises
NotFound unless `make_parents` recurses (the fuel bounds that recursion
depth; the parent path is strictly shorter than the name, so the initial
fuel `name.length + 1` can never run out on the recursion paths); the
parent ACL check runs `enforce_acl` over owner, create, ancestor_owner
and ancestor_create; finally `_create_name` inserts the raw `name` string
with `is_deleted = False` and `_set_resource_acl_role` appends the caller
as owner. -/
def create_name_fuel : ℕ → NameState → String → Bool → Bool → ClientContext →
    Except HatracError (NameState × NameRow)
  | 0, _, _, _, _, _ => .error .notFound
  | fuel + 1, s, name, isObject, makeParents, ctx =>
    let nameparts := (pySplitSlash name).filter (fun p => p ≠ "")
    if h0 : nameparts = [] then .error .pyIndexError
    else
      let parname := "/" ++ joinSlash nameparts.dropLast
      let relname := nameparts.getLast h0
      if relname = "." ∨ relname = ".." then .error .badRequest
      else
        match nameLookupAny s name with
        | some _ => .error .conflict
        | none =>
          let parentRes : Except HatracError (NameState × NameRow) :=
            match nameLookupLive s parname with
            | some p => if p.subtype = 1 then .error .conflict else .ok (s, p)
            | none =>
                if makeParents then create_name_fuel fuel s parname false true ctx
                else .error .notFound
          match parentRes with
          | .error e => .error e
          | .ok (s1, parent) =>
            match enforce_acl (loadedAcls s1 parent)
                ["owner", "create", "ancestor_owner", "ancestor_create"] ctx with
            | .error e => .error e
            | .ok _ =>
              let newRow : NameRow :=
                ⟨s1.nextId, some parent.id, parent.ancestors ++ [parent.id], name,
                  if isObject then 1 else 0, false,
                  [("owner", match ctx.client with | some c => [c] | none => [])]⟩
              .ok (⟨s1.rows ++ [newRow], s1.nextId + 1⟩, newRow)

/-- `HatracDirectory.create_name` at its call interface. -/
def create_name (s : NameState) (name : String) (isObject makeParents : Bool)
    (ctx : ClientContext) : Except HatracError (NameState × NameRow) :=
  create_name_fuel (name.length + 1) s name isObject makeParents ctx

/-- C8 counterexample: the path `/foo//bar` contains an empty component,
yet `create_name` does not raise BadRequest: it silently drops empty
components when computing the parent (`/foo`) and inserts the raw name
`/foo//bar` as a new object row.  The claim holds only for `.` and `..`
leaves. -/
theorem hatrac_create_name_empty_component_cex :
    ("" ∈ pySplitSlash "/foo//bar")
    ∧ create_name
        ⟨[⟨1, none, [], "/", 0, false, [("owner", ["admin"])]⟩,
          ⟨2, some 1, [1], "/foo", 0, false, [("owner", ["alice"])]⟩], 3⟩
        "/foo//bar" true false ⟨some "alice", []⟩
      = .ok
        (⟨[⟨1, none, [], "/", 0, false, [("owner", ["admin"])]⟩,
           ⟨2, some 1, [1], "/foo", 0, false, [("owner", ["alice"])]⟩,
           ⟨3, some 2, [1, 2], "/foo//bar", 1, false, [("owner", ["alice"])]⟩], 4⟩,
         ⟨3, some 2, [1, 2], "/foo//bar", 1, false, [("owner", ["alice"])]⟩) := by
  exact ⟨by decide, rfl⟩

/-- C8 (amended): for every path whose last nonempty component is `.` or
`..`, `create_name` fails with BadRequest before touching the table, so no
name is created; paths with empty components are not rejected. -/
theorem hatrac_create_name_dot_names (s : NameState) (name : String)
    (isObject makeParents : Bool) (ctx : ClientContext)
    (h0 : ((pySplitSlash name).filter (fun p => p ≠ "")) ≠ [])
    (hlast : ((pySplitSlash name).filter (fun p => p ≠ "")).getLast h0 = "."
      ∨ ((pySplitSlash name).filter (fun p => p ≠ "")).getLast h0 = "..") :
    create_name s name isObject makeParents ctx = .error .badRequest := by
  unfold create_name
  rw [create_name_fuel]
  rw [dif_neg h0]
  rw [if_pos hlast]

/-- Witness for the amended C8 at the path `/foo/..`. -/
theorem hatrac_create_name_dot_names_witness :
    (((pySplitSlash "/foo/..").filter (fun p => p ≠ "")) ≠ []
      ∧ (((pySplitSlash "/foo/..").filter (fun p => p ≠ "")).getLast (by decide) = "."
        ∨ ((pySplitSlash "/foo/..").filter (fun p => p ≠ "")).getLast (by decide) = ".."))
    ∧ create_name ⟨[], 1⟩ "/foo/.." false false ⟨none, []⟩ = .error .badRequest :=
  ⟨⟨by decide, by decide⟩,
    hatrac_create_name_dot_names ⟨[], 1⟩ "/foo/.." false false ⟨none, []⟩
      (by decide) (by decide)⟩

/-- Lexicographic comparison of character lists by Unicode code point,
the order `list.sort()` uses on Python strings. -/
def lexLeChars : List Char → List Char → Bool
  | [], _ => true
  | _ :: _, [] => false
  | c :: cs, d :: ds =>
    if c.toNat < d.toNat then true
    else if d.toNat < c.toNat then false
    else lexLeChars cs ds

lemma lexLeChars_total : ∀ a b, lexLeChars a b = true ∨ lexLeChars b a = true := by
  intro a
  induction a with
  | nil => intro b; left; rfl
  | cons c cs ih =>
    intro b
    cases b with
    | nil => right; rfl
    | cons d ds =>
      by_cases h1 : c.toNat < d.toNat
      · left; simp [lexLeChars, h1]
      · by_cases h2 : d.toNat < c.toNat
        · right; simp [lexLeChars, h2]
        · rcases ih ds with h | h
          · left; simpa [lexLeChars, h1, h2] using h
          · right; simpa [lexLeChars, h1, h2] using h

lemma lexLeChars_trans :
    ∀ a b c, lexLeChars a b = true → lexLeChars b c = true → lexLeChars a c = true := by
  intro a
  induction a with
  | nil => intro b c _ _; rfl
  | cons x xs ih =>
    intro b c hab hbc
    cases b with
    | nil => simp [lexLeChars] at hab
    | cons y ys =>
      cases c with
      | nil => simp [lexLeChars] at hbc
      | cons z zs =>
        simp only [lexLeChars] at hab hbc ⊢
        by_cases hxy : x.toNat < y.toNat <;> by_cases hyz : y.toNat < z.toNat
        · simp [show x.toNat < z.toNat by omega]
        · simp only [hyz, if_false] at hbc
          by_cases hzy : z.toNat < y.toNat
          · simp [hzy] at hbc
          · have : y.toNat = z.toNat := by omega
            simp [show x.toNat < z.toNat by omega]
        · simp only [hxy, if_false] at hab
          by_cases hyx : y.toNat < x.toNat
          · simp [hyx] at hab
          · have : x.toNat = y.toNat := by omega
            simp [show x.toNat < z.toNat by omega]
        · simp only [hxy, if_false] at hab
          by_cases hyx : y.toNat < x.toNat
          · simp [hyx] at hab
          · simp only [hyx, if_false] at hab
            simp only [hyz, if_false] at hbc
            by_cases hzy : z.toNat < y.toNat
            · simp [hzy] at hbc
            · simp only [hzy, if_false] at hbc
              have hxz : ¬ x.toNat < z.toNat := by omega
              have hzx : ¬ z.toNat < x.toNat := by omega
              simp only [hxz, hzx, if_false]
              exact ih ys zs hab hbc

lemma lexLeChars_antisymm :
    ∀ a b, lexLeChars a b = true → lexLeChars b a = true → a = b := by
  intro a
  induction a with
  | nil =>
    intro b _ hba
    cases b with
    | nil => rfl
    | cons d ds => simp [lexLeChars] at hba
  | cons c cs ih =>
    intro b hab hba
    cases b with
    | nil => simp [lexLeChars] at hab
    | cons d ds =>
      simp only [lexLeChars] at hab hba
      by_cases h1 : c.toNat < d.toNat
      · simp [show ¬ d.toNat < c.toNat by omega, h1] at hba
      · by_cases h2 : d.toNat < c.toNat
        · simp [h1, h2] at hab
        · have hcd : c = d := by
            have : c.toNat = d.toNat := by omega
            have h3 : Char.ofNat c.toNat = Char.ofNat d.toNat := by rw [this]
            rwa [Char.ofNat_toNat, Char.ofNat_toNat] at h3
          simp only [h1, h2, if_false] at hab hba
          rw [hcd, ih ds hab hba]

/-- Python string comparison `a <= b` (code-point lexicographic), the
sort key of `copy.sort()` in `hash_list`. -/
def pyStrLe (a b : String) : Prop := lexLeChars a.data b.data = true

instance : DecidableRel pyStrLe := fun _ _ => instDecidableEqBool _ _

instance : IsTotal String pyStrLe := ⟨fun a b => lexLeChars_total a.data b.data⟩

instance : IsTrans String pyStrLe :=
  ⟨fun a b c => lexLeChars_trans a.data b.data c.data⟩

instance : IsAntisymm String pyStrLe := by
  refine ⟨fun a b hab hba => ?_⟩
  cases a with
  | mk la =>
    cases b with
    | mk lb =>
      have := lexLeChars_antisymm la lb hab hba
      rw [this]

/-- The 64 MD5 sine-derived round constants of RFC 1321, the algorithm
behind `hashlib.md5` used by `hash_value` in `hatrac/rest/core.py`. -/
def md5K : List ℕ :=
  [0xd76aa478, 0xe8c7b756, 0x242070db, 0xc1bdceee,
   0xf57c0faf, 0x4787c62a, 0xa8304613, 0xfd469501,
   0x698098d8, 0x8b44f7af, 0xffff5bb1, 0x895cd7be,
   0x6b901122, 0xfd987193, 0xa679438e, 0x49b40821,
   0xf61e2562, 0xc040b340, 0x265e5a51, 0xe9b6c7aa,
   0xd62f105d, 0x02441453, 0xd8a1e681, 0xe7d3fbc8,
   0x21e1cde6, 0xc33707d6, 0xf4d50d87, 0x455a14ed,
   0xa9e3e905, 0xfcefa3f8, 0x676f02d9, 0x8d2a4c8a,
   0xfffa3942, 0x8771f681, 0x6d9d6122, 0xfde5380c,
   0xa4beea44, 0x4bdecfa9, 0xf6bb4b60, 0xbebfbc70,
   0x289b7ec6, 0xeaa127fa, 0xd4ef3085, 0x04881d05,
   0xd9d4d039, 0xe6db99e5, 0x1fa27cf8, 0xc4ac5665,
   0xf4292244, 0x432aff97, 0xab9423a7, 0xfc93a039,
   0x655b59c3, 0x8f0ccc92, 0xffeff47d, 0x85845dd1,
   0x6fa87e4f, 0xfe2ce6e0, 0xa3014314, 0x4e0811a1,
   0xf7537e82, 0xbd3af235, 0x2ad7d2bb, 0xeb86d391]

/-- The per-round left-rotation amounts of RFC 1321. -/
def md5S : List ℕ :=
  [7, 12, 17, 22, 7, 12, 17, 22, 7, 12, 17, 22, 7, 12, 17, 22,
   5, 9, 14, 20, 5, 9, 14, 20, 5, 9, 14, 20, 5, 9, 14, 20,
   4, 11, 16, 23, 4, 11, 16, 23, 4, 11, 16, 23, 4, 11, 16, 23,
   6, 10, 15, 21, 6, 10, 15, 21, 6, 10, 15, 21, 6, 10, 15, 21]

/-- 32-bit left rotation on naturals below 2 to the 32. -/
def rotl32 (x c : ℕ) : ℕ :=
  ((x <<< c) % 4294967296) ||| (x >>> (32 - c))

/-- Decode a byte list into little-endian 32-bit words. -/
def leWords : List ℕ → List ℕ
  | b0 :: b1 :: b2 :: b3 :: rest =>
      (b0 + 256 * b1 + 65536 * b2 + 16777216 * b3) :: leWords rest
  | _ => []

/-- One MD5 round on the register quadruple, RFC 1321 section 3.4. -/
def md5Round (m : List ℕ) (h : ℕ × ℕ × ℕ × ℕ) (i : ℕ) : ℕ × ℕ × ℕ × ℕ :=
  let a := h.1
  let b := h.2.1
  let c := h.2.2.1
  let d := h.2.2.2
  let f :=
    if i < 16 then (b &&& c) ||| ((b ^^^ 4294967295) &&& d)
    else if i < 32 then (d &&& b) ||| ((d ^^^ 4294967295) &&& c)
    else if i < 48 then b ^^^ c ^^^ d
    else c ^^^ (b ||| (d ^^^ 4294967295))
  let g :=
    if i < 16 then i
    else if i < 32 then (5 * i + 1) % 16
    else if i < 48 then (3 * i + 5) % 16
    else (7 * i) % 16
  let f2 := (f + a + md5K.getD i 0 + m.getD g 0) % 4294967296
  (d, (b + rotl32 f2 (md5S.getD i 0)) % 4294967296, b, c)

/-- Compress one 64-byte block into the running MD5 state. -/
def md5Compress (h : ℕ × ℕ × ℕ × ℕ) (block : List ℕ) : ℕ × ℕ × ℕ × ℕ :=
  let m := leWords block
  let r := (List.range 64).foldl (md5Round m) h
  ((h.1 + r.1) % 4294967296, (h.2.1 + r.2.1) % 4294967296,
   (h.2.2.1 + r.2.2.1) % 4294967296, (h.2.2.2 + r.2.2.2) % 4294967296)

/-- Consume the padded message byte-by-byte, compressing every full
64-byte block (the padded length is a multiple of 64). -/
def md5Blocks (acc : List ℕ) (h : ℕ × ℕ × ℕ × ℕ) : List ℕ → ℕ × ℕ × ℕ × ℕ
  | [] => h
  | b :: rest =>
    let acc2 := acc ++ [b]
    if acc2.length = 64 then md5Blocks [] (md5Compress h acc2) rest
    else md5Blocks acc2 h rest

/-- The low `k` bytes of a natural in little-endian order. -/
def leBytes (n : ℕ) : ℕ → List ℕ
  | 0 => []
  | k + 1 => (n % 256) :: leBytes (n / 256) k

/-- The MD5 digest (16 bytes) of a byte sequence per RFC 1321: append
the 0x80 marker, zero-pad to 56 mod 64, append the 64-bit little-endian
bit length, compress, and serialize the registers little-endian. -/
def md5 (msg : List ℕ) : List ℕ :=
  let len := msg.length
  let zeros := (120 - ((len + 1) % 64)) % 64
  let padded := msg ++ [128] ++ List.replicate zeros 0
    ++ leBytes ((8 * len) % 18446744073709551616) 8
  let r := md5Blocks [] (0x67452301, 0xefcdab89, 0x98badcfe, 0x10325476) padded
  leBytes r.1 4 ++ leBytes r.2.1 4 ++ leBytes r.2.2.1 4 ++ leBytes r.2.2.2 4

/-- The RFC 4648 base64 alphabet used by `base64.b64encode`. -/
def base64Alphabet : List Char :=
  "ABCDEFGHIJKLMNOPQRSTUVWXYZabcdefghijklmnopqrstuvwxyz0123456789+/".data

def b64Char (n : ℕ) : Char := base64Alphabet.getD n 'A'

/-- Standard base64 encoding of a byte list, three bytes to four
characters with padding. -/
def b64EncodeGroups : List ℕ → List Char
  | [] => []
  | [b0] => [b64Char (b0 >>> 2), b64Char ((b0 &&& 3) <<< 4), '=', '=']
  | [b0, b1] => [b64Char (b0 >>> 2), b64Char (((b0 &&& 3) <<< 4) ||| (b1 >>> 4)),
      b64Char ((b1 &&& 15) <<< 2), '=']
  | b0 :: b1 :: b2 :: rest =>
      b64Char (b0 >>> 2) :: b64Char (((b0 &&& 3) <<< 4) ||| (b1 >>> 4))
        :: b64Char (((b1 &&& 15) <<< 2) ||| (b2 >>> 6)) :: b64Char (b2 &&& 63)
        :: b64EncodeGroups rest

def base64Encode (bs : List ℕ) : String := String.mk (b64EncodeGroups bs)

/-- UTF-8 encoding of one character to bytes, matching `str.encode()`. -/
def utf8EncodeCharNat (c : Char) : List ℕ :=
  let v := c.toNat
  if v < 128 then [v]
  else if v < 2048 then [192 + v / 64, 128 + v % 64]
  else if v < 65536 then [224 + v / 4096, 128 + (v / 64) % 64, 128 + v % 64]
  else [240 + v / 262144, 128 + (v / 4096) % 64, 128 + (v / 64) % 64, 128 + v % 64]

/-- UTF-8 encoding of a string to bytes, matching `d.encode()`. -/
def utf8Bytes (s : String) : List ℕ := s.data.flatMap utf8EncodeCharNat

/-- Translation of `hash_value` (`rest/core.py` line 38):
`base64.b64encode(hashlib.md5(d.encode()).digest()).decode()`. -/
def hash_value (d : String) : String := base64Encode (md5 (utf8Bytes d))

/-- Translation of `hash_list` (`rest/core.py` lines 53-56) restricted to
lists of strings, for which `hash_multi` delegates to `hash_value`:
hash each element, sort the hashes (Python list sort on strings), join
them, and hash the resulting string.  No deduplication is performed. -/
def hash_list (l : List String) : String :=
  hash_value (String.join (List.insertionSort pyStrLe (l.map hash_value)))

set_option maxRecDepth 100000 in
/-- Known-answer check tying the embedded MD5 and base64 to `hashlib`:
the digest of the one-byte message "a" is 0cc175b9c0f1b6a831c399e269772661,
whose base64 form is the string below. -/
lemma hash_value_known_answer : hash_value "a" = "DMF1ucDxtqgxw5niaXcmYQ==" := by decide

set_option maxRecDepth 100000 in
/-- C9 counterexample: the lists [a, a] and [a] have the same set of
distinct elements (equal `dedup`), yet `hash_list` hashes the
concatenation of two sorted element hashes versus one, producing
different digests: the source sorts but never deduplicates. -/
theorem hatrac_hash_list_duplicate_cex :
    (["a", "a"] : List String).dedup = (["a"] : List String).dedup
    ∧ hash_list ["a", "a"] ≠ hash_list ["a"] := by
  constructor
  · decide
  · decide

/-- C9 (amended): `hash_list` is order-independent: for every two lists of
strings that are permutations of each other (the same elements with the
same multiplicities), it returns the same base64-encoded MD5 digest. -/
theorem hatrac_hash_list_perm (l1 l2 : List String) (h : l1.Perm l2) :
    hash_list l1 = hash_list l2 := by
  unfold hash_list
  congr 1
  congr 1
  refine List.eq_of_perm_of_sorted ?_
    (List.sorted_insertionSort _ _) (List.sorted_insertionSort _ _)
  exact ((List.perm_insertionSort _ _).trans (h.map hash_value)).trans
    (List.perm_insertionSort _ _).symm

set_option maxRecDepth 100000 in
/-- Witness for the amended C9 at a concrete permutation. -/
theorem hatrac_hash_list_perm_witness :
    (["b", "a"] : List String).Perm ["a", "b"]
    ∧ hash_list ["b", "a"] = hash_list ["a", "b"] :=
  ⟨by decide, hatrac_hash_list_perm ["b", "a"] ["a", "b"] (by decide)⟩
